import Mathlib

/-!
Shallow embedding of the hyfetch recoloring engine
(`src/crates/hyfetch/src/neofetch_util.rs`).

Strings are modelled as `List Char`; the Rust code measures widths in
grapheme clusters, which coincide with characters (and with bytes) on the
ASCII inputs used throughout this development, so one list element models
one grapheme and one byte of offset.  Rust panics (`expect`, out-of-bounds
indexing, `unreachable!`) are embedded as the error `RErr.panic`; the
recoverable error names come from the specification's error vocabulary.
-/

namespace Hyfetch

/-- Errors of the recoloring engine.  `missingColorState`,
`profileSpreadFailure`, `invalidColorIndex` and `dimensionOverflow` are the
specification's recoverable error kinds; `panic` models a Rust panic
(`expect`, slice/index out of bounds, `unreachable!`). -/
inductive RErr where
  | missingColorState
  | profileSpreadFailure
  | invalidColorIndex
  | dimensionOverflow
  | panic
deriving DecidableEq, Repr

/-- Terminal theme (`TerminalTheme` in `types.rs`). -/
inductive TerminalTheme where
  | light
  | dark
deriving DecidableEq, Repr

/-- Is this char one of the six slot digits `1`..`6`? -/
def tokDigit (c : Char) : Bool :=
  c = '1' || c = '2' || c = '3' || c = '4' || c = '5' || c = '6'

/-- Slot number (1..6) named by a digit char; 0 for anything else. -/
def charSlot (c : Char) : Nat :=
  if c = '1' then 1 else if c = '2' then 2 else if c = '3' then 3
  else if c = '4' then 4 else if c = '5' then 5 else if c = '6' then 6 else 0

/-- Digit char of a slot number (1..6); `'0'` for anything else. -/
def slotChar (s : Nat) : Char :=
  if s = 1 then '1' else if s = 2 then '2' else if s = 3 then '3'
  else if s = 4 then '4' else if s = 5 then '5' else if s = 6 then '6' else '0'

/-- The five characters of the placeholder token for slot `s`,
one of `NEOFETCH_COLOR_PATTERNS`. -/
def tokChars (s : Nat) : List Char :=
  ['$', '\x7b', 'c', slotChar s, '\x7d']

/-- Does the list start with one of the six placeholder tokens?  This is the
question the Aho-Corasick scanner asks at each position. -/
def startsWithTok : List Char → Bool
  | a :: b :: cc :: d :: e :: _ =>
    a = '$' && b = '\x7b' && cc = 'c' && tokDigit d && e = '\x7d'
  | _ => false

/-- Slot number of the token at the head of the list (meaningful only when
`startsWithTok` holds; the Rust code parses `line[m.start()+3..m.end()-1]`). -/
def slotAt : List Char → Nat
  | _ :: _ :: _ :: d :: _ :: _ => charSlot d
  | _ => 0

/-- Multi-pattern replace-all of the six tokens by the empty string:
`ac.replace_all(asc, ["", "", "", "", "", ""])`.  The scan is left to right
and non-overlapping, which for six same-length patterns agrees with the
Aho-Corasick standard (earliest match) semantics. -/
def strip (l : List Char) : List Char :=
  match l with
  | [] => []
  | c :: rest =>
    if startsWithTok (c :: rest) then strip (rest.drop 4) else c :: strip rest
termination_by l.length
decreasing_by
  · simp [List.length_drop]; omega
  · simp

/-- Single-pattern replace-all of the token of slot `s` by `rep`:
Rust `String::replace` on the literal pattern. -/
def replaceTok (s : Nat) (rep : List Char) (l : List Char) : List Char :=
  match l with
  | [] => []
  | c :: rest =>
    if (c :: rest).take 5 == tokChars s then rep ++ replaceTok s rep (rest.drop 4)
    else c :: replaceTok s rep rest
termination_by l.length
decreasing_by
  · simp [List.length_drop]; omega
  · simp

/-- Multi-pattern replace-all with a per-slot replacement list of length 6
(the `replacements` array of the `Custom` branch): the token of slot `s` is
replaced by `reps[s-1]`. -/
def replaceSlots (reps : List (List Char)) (l : List Char) : List Char :=
  match l with
  | [] => []
  | c :: rest =>
    if startsWithTok (c :: rest) then
      reps.getD (slotAt (c :: rest) - 1) [] ++ replaceSlots reps (rest.drop 4)
    else c :: replaceSlots reps rest
termination_by l.length
decreasing_by
  · simp [List.length_drop]; omega
  · simp

/-- Non-overlapping token occurrences from left to right (`ac.find_iter`),
each as `(start position, slot number)`; `pos` is the position of the head
of `l` in the enclosing line. -/
def findMatchesGo (l : List Char) (pos : Nat) : List (Nat × Nat) :=
  match l with
  | [] => []
  | c :: rest =>
    if startsWithTok (c :: rest) then
      (pos, slotAt (c :: rest)) :: findMatchesGo (rest.drop 4) (pos + 5)
    else findMatchesGo rest (pos + 1)
termination_by l.length
decreasing_by
  · simp [List.length_drop]; omega
  · simp

/-- Token occurrences of a whole line. -/
def findMatches (l : List Char) : List (Nat × Nat) :=
  findMatchesGo l 0

/-- Split on `'\n'`, like Rust `str::split('\n')`: always at least one
piece, the empty string splits to one empty piece. -/
def splitOnNl (l : List Char) : List (List Char) :=
  l.splitOn '\n'

/-- Join lines with `'\n'` (Rust `join("\n")`). -/
def joinLines (ls : List (List Char)) : List Char :=
  List.intercalate ['\n'] ls

/-- Rust `str::trim_end_matches(' ')`. -/
def trimEndSpaces (l : List Char) : List Char :=
  (l.reverse.dropWhile (fun c => c = ' ')).reverse

/-- The `fill_starting` per-line test: the first token occurrence exists and
sits at position 0 or after a prefix of spaces
(`m.start() == 0 || line[0..m.start()].trim_end_matches(' ').is_empty()`). -/
def lineStartsOk (line : List Char) : Bool :=
  match findMatches line with
  | [] => false
  | (st, _) :: _ => st == 0 || (trimEndSpaces (line.take st)).isEmpty

/-- One step of `fill_starting`: produce the new line and the carry for the
next line.  The carry is updated to the text of the line's last token
occurrence (`&line[m.span()]`) whenever the line has one. -/
def fillLine (carry : Option (List Char)) (line : List Char) :
    Except RErr (List Char × Option (List Char)) := do
  let newLine ←
    if lineStartsOk line then pure line
    else
      match carry with
      | some t => pure (t ++ line)
      | none => Except.error RErr.missingColorState
  let carry' :=
    match (findMatches line).getLast? with
    | some m => some ((line.drop m.1).take 5)
    | none => carry
  pure (newLine, carry')

/-- Top-to-bottom scan of `fill_starting`, short-circuiting on the first
error like `collect::<Result<Vec<_>>>()`. -/
def fillGo (carry : Option (List Char)) : List (List Char) → Except RErr (List (List Char))
  | [] => Except.ok []
  | line :: rest => do
    let r ← fillLine carry line
    let others ← fillGo r.2 rest
    pure (r.1 :: others)

/-- `fill_starting`: fill in missing starting placeholders, carrying the
last token seen on a previous line forward. -/
def fill_starting (asc : List Char) : Except RErr (List Char) :=
  (fillGo none (splitOnNl asc)).map joinLines

/-- Lines of an art after the token-stripping pass of `ascii_size`. -/
def asciiLines (asc : List Char) : List (List Char) :=
  splitOnNl (strip asc)

/-- `ascii_size`: width = maximum per-line length after stripping tokens,
height = number of lines.  The Rust function returns `(u8, u8)` and panics
via `expect` when a dimension exceeds `u8` (`u8::try_from(..).expect(..)`),
or when the line iterator is empty; the panics are embedded as
`RErr.panic`. -/
def ascii_size (asc : List Char) : Except RErr (Nat × Nat) :=
  if (asciiLines asc).isEmpty then Except.error RErr.panic
  else if ((asciiLines asc).map List.length).foldr Nat.max 0 ≤ 255 then
    if (asciiLines asc).length ≤ 255 then
      Except.ok (((asciiLines asc).map List.length).foldr Nat.max 0, (asciiLines asc).length)
    else Except.error RErr.panic
  else Except.error RErr.panic

/-- Pad one line of `normalize_ascii` to width `w` with trailing spaces.
The Rust subtraction `w - line_w` is on `u8`; it is embedded as truncated
`Nat` subtraction (the per-line width never exceeds `w`, see `C9`). -/
def padLine (w : Nat) (line : List Char) : Except RErr (List Char) := do
  let r ← ascii_size line
  pure (line ++ List.replicate (w - r.1) ' ')

/-- `normalize_ascii`: make every line the same width. -/
def normalize_ascii (asc : List Char) : Except RErr (List Char) := do
  let r ← ascii_size asc
  let lines ← (splitOnNl asc).mapM (padLine r.1)
  pure (joinLines lines)

/-- Modelled from the spec: the rendering side of the external color
collaborator (`color_util.rs` / `presets.rs`, not under `src/`).  `reset` is
`color("&~&*", mode)`; `neutral` is the theme-neutral foreground
(`color("&0")` for a light theme, `color("&f")` for dark); `render c` is
`c.to_ansi_string(mode, Foreground)`, an escape prefix with no trailing
reset.  Colors are opaque identifiers. -/
structure Collab where
  reset : List Char
  neutral : TerminalTheme → List Char
  render : Nat → List Char

/-- Modelled from the spec: a concrete instance of the collaborator, used
for closed evaluations.  The escape texts are arbitrary markers. -/
def Collab.default : Collab where
  reset := ['[', 'R', ']']
  neutral := fun t =>
    match t with
    | TerminalTheme.light => ['[', 'K', ']']
    | TerminalTheme.dark => ['[', 'W', ']']
  render := fun c => '[' :: 'F' :: (List.replicate c '*' ++ [']'])

/-- Modelled from the spec: `ColorProfile::with_length` (`spread_to(n)`),
which fails when the source profile is empty or the requested length is
zero, and otherwise produces a profile of length exactly `n` (the identity
when `n` equals the current length). -/
def withLength (p : List Nat) (n : Nat) : Except RErr (List Nat) :=
  if p.isEmpty || n == 0 then Except.error RErr.profileSpreadFailure
  else Except.ok ((List.range n).map (fun i => p.getD (i * p.length / n) 0))

/-- Modelled from the spec: `ColorProfile::unique_colors`
(`deduplicated()`), duplicates removed keeping first occurrences. -/
def uniqueColors (p : List Nat) : List Nat :=
  p.dedup

/-- Modelled from the spec: `ColorProfile::color_text(txt, mode,
Foreground, false)` — spread the profile across the characters of `txt` and
prefix each character with its color's escape, no trailing reset. -/
def colorText (cb : Collab) (p : List Nat) (txt : List Char) : Except RErr (List Char) := do
  let cs ← withLength p txt.length
  pure (List.flatten ((cs.zip txt).map (fun pc => cb.render pc.1 ++ [pc.2])))

/-- Rust slice `l[a..b]`, which panics when the range is out of bounds. -/
def sliceE (l : List Nat) (a b : Nat) : Except RErr (List Nat) :=
  if a ≤ b ∧ b ≤ l.length then Except.ok ((l.drop a).take (b - a))
  else Except.error RErr.panic

/-- `ColorAlignment`.  A slot pair or mapping key is a
`NeofetchAsciiIndexedColor`, an integer in 1..=6 by construction, embedded
as `Fin 6` holding the slot number minus one; a `Custom` mapping value is a
`PresetIndexedColor` palette index.  The `IndexMap` is embedded as its
association list in insertion order. -/
inductive ColorAlignment where
  | horizontal (foreBack : Option (Fin 6 × Fin 6))
  | vertical (foreBack : Option (Fin 6 × Fin 6))
  | custom (colors : List (Fin 6 × Nat))
deriving DecidableEq

/-- Loop body of the `Vertical` fore/back branch: walk the token
occurrences of `line`; each occurrence's slot decides how the text up to
the next occurrence (or the end of the line) is rendered.  `offset0` is the
total length of tokens consumed before the current occurrence. -/
def vertGo (cb : Collab) (theme : TerminalTheme) (fore back : Fin 6) (colors : List Nat)
    (line : List Char) : List (Nat × Nat) → Nat → Except RErr (List Char)
  | [], _ => Except.ok []
  | m :: rest, offset0 =>
    let offset := offset0 + 5
    let spanStart := m.1 + 5
    let spanEnd := match rest with | m2 :: _ => m2.1 | [] => line.length
    let txt := (line.drop spanStart).take (spanEnd - spanStart)
    do
      let piece ←
        if m.2 = fore.val + 1 then pure (cb.neutral theme ++ txt ++ cb.reset)
        else if m.2 = back.val + 1 then do
          let sub ← sliceE colors (spanStart - offset) (spanEnd - offset)
          colorText cb sub txt
        else pure txt
      let others ← vertGo cb theme fore back colors line rest offset
      pure (piece ++ others)

/-- One line of the `Vertical` fore/back branch.  A line with no token
occurrence hits the `unreachable!` of the Rust code, embedded as
`RErr.panic`. -/
def vertLine (cb : Collab) (theme : TerminalTheme) (fore back : Fin 6) (colors : List Nat)
    (line : List Char) : Except RErr (List Char) :=
  match findMatches line with
  | [] => Except.error RErr.panic
  | ms => vertGo cb theme fore back colors line ms 0

/-- Replacement array of the `Custom` branch: start from six empty strings
and set entry `slot` for each mapping entry.  `palette[pi]` is a Rust `Vec`
index, which panics when out of bounds, embedded as `RErr.panic`. -/
def buildReplacements (cb : Collab) (mapping : List (Fin 6 × Nat)) (palette : List Nat) :
    Except RErr (List (List Char)) :=
  mapping.foldlM
    (fun reps sp =>
      if sp.2 < palette.length then
        Except.ok (reps.set sp.1.val (cb.render (palette.getD sp.2 0)))
      else Except.error RErr.panic)
    (List.replicate 6 [])

/-- `ColorAlignment::recolor_ascii`, branch by branch. -/
def recolor_ascii (cb : Collab) (ca : ColorAlignment) (p : List Nat)
    (theme : TerminalTheme) (asc : List Char) : Except RErr (List Char) :=
  match ca with
  | ColorAlignment.horizontal (some (fore, back)) => do
    let a ← fill_starting asc
    let a := replaceTok (fore.val + 1) (cb.neutral theme) a
    let r ← ascii_size a
    let colors ← withLength p r.2
    let lines := (splitOnNl a).enum.map (fun il =>
      replaceTok (back.val + 1) (cb.render (colors.getD il.1 0)) il.2 ++ cb.reset)
    pure (strip (joinLines lines))
  | ColorAlignment.vertical (some (fore, back)) => do
    let a ← fill_starting asc
    let r ← ascii_size a
    let colors ← withLength p r.1
    let rendered ← (splitOnNl a).mapM (vertLine cb theme fore back colors)
    pure (joinLines rendered)
  | ColorAlignment.horizontal none => do
    let a := strip asc
    let r ← ascii_size a
    let colors ← withLength p r.2
    pure (joinLines ((splitOnNl a).enum.map (fun il =>
      cb.render (colors.getD il.1 0) ++ il.2 ++ cb.reset)))
  | ColorAlignment.vertical none => do
    let rendered ← (splitOnNl (strip asc)).mapM (colorText cb p)
    pure (joinLines rendered)
  | ColorAlignment.custom mapping => do
    let a ← fill_starting asc
    let reps ← buildReplacements cb mapping (uniqueColors p)
    pure (joinLines ((splitOnNl (replaceSlots reps a)).map (fun line => line ++ cb.reset)))

/-! Claim-side vocabulary: definitions phrased the way the specification
talks about the engine, used to state the claims against the embedded
code. -/

/-- Measured width of an art: maximum, over all lines, of the character
count after stripping all placeholder tokens. -/
def measuredW (s : List Char) : Nat :=
  ((splitOnNl (strip s)).map List.length).foldr Nat.max 0

/-- Measured height of an art: its number of lines. -/
def measuredH (s : List Char) : Nat :=
  (splitOnNl (strip s)).length

/-- Display width of a single line: character count after stripping. -/
def lineW (line : List Char) : Nat :=
  (strip line).length

/-- Does the line contain at least one placeholder occurrence? -/
def hasTok (line : List Char) : Bool :=
  !(findMatches line).isEmpty

/-- The specification's phrasing of the `fill_starting` per-line test: the
first non-space-prefix content is already a placeholder token. -/
def startsSpec (line : List Char) : Bool :=
  startsWithTok (line.dropWhile (fun c => c = ' '))

/-- Last placeholder occurrence of a line, as its token text. -/
def lastTokOf (line : List Char) : Option (List Char) :=
  ((findMatches line).getLast?).map (fun m => tokChars m.2)

/-- Scan of the amended C5 algorithm: a line whose first non-space-prefix
content is a placeholder is kept; any other line gets the carry prepended
(error when there is none); the carry is updated to the last placeholder
occurrence of every line that has one, modified or not. -/
def fillAmendedGo (carry : Option (List Char)) :
    List (List Char) → Except RErr (List (List Char))
  | [] => Except.ok []
  | line :: rest =>
    let carry2 := match lastTokOf line with | some t => some t | none => carry
    if startsSpec line then
      (fillAmendedGo carry2 rest).map (fun others => line :: others)
    else
      match carry with
      | some t => (fillAmendedGo carry2 rest).map (fun others => (t ++ line) :: others)
      | none => Except.error RErr.missingColorState

/-- The amended C5 algorithm on a whole art. -/
def fillAmended (asc : List Char) : Except RErr (List Char) :=
  (fillAmendedGo none (splitOnNl asc)).map joinLines

/-- Scan of the C5 claim's algorithm as literally stated: identical to
`fillAmendedGo` except that the carry is recorded only from lines that were
left unchanged. -/
def fillClaimedGo (carry : Option (List Char)) :
    List (List Char) → Except RErr (List (List Char))
  | [] => Except.ok []
  | line :: rest =>
    if startsSpec line then
      (fillClaimedGo (lastTokOf line) rest).map (fun others => line :: others)
    else
      match carry with
      | some t => (fillClaimedGo carry rest).map (fun others => (t ++ line) :: others)
      | none => Except.error RErr.missingColorState

/-- The C5 claim's algorithm as literally stated, on a whole art. -/
def fillClaimed (asc : List Char) : Except RErr (List Char) :=
  (fillClaimedGo none (splitOnNl asc)).map joinLines

/-! Lemmas about line splitting and joining. -/

theorem splitOnNl_ne_nil (l : List Char) : splitOnNl l ≠ [] :=
  List.splitOnP_ne_nil _ l

theorem splitOnNl_nil : splitOnNl [] = [[]] := rfl

theorem splitOnNl_cons (c : Char) (l : List Char) :
    splitOnNl (c :: l) =
      if c = '\n' then [] :: splitOnNl l else (splitOnNl l).modifyHead (List.cons c) := by
  simp only [splitOnNl, List.splitOn, List.splitOnP_cons, beq_iff_eq]

theorem splitOnNl_mem_no_nl (l : List Char) : ∀ line ∈ splitOnNl l, '\n' ∉ line := by
  induction l with
  | nil => simp [splitOnNl_nil]
  | cons c rest ih =>
    rw [splitOnNl_cons]
    by_cases hc : c = '\n'
    · simp only [if_pos hc]
      intro line hline
      rcases List.mem_cons.mp hline with h | h
      · simp [h]
      · exact ih line h
    · simp only [if_neg hc]
      rcases h : splitOnNl rest with _ | ⟨H, T⟩
      · exact absurd h (splitOnNl_ne_nil rest)
      · intro line hline
        rcases List.mem_cons.mp hline with h2 | h2
        · subst h2
          intro hmem
          rcases List.mem_cons.mp hmem with h3 | h3
          · exact hc h3.symm
          · exact ih H (h ▸ List.mem_cons_self H T) h3
        · exact ih line (h ▸ List.mem_cons_of_mem H h2)

theorem splitOnNl_length (l : List Char) : (splitOnNl l).length = l.count '\n' + 1 := by
  induction l with
  | nil => rfl
  | cons c rest ih =>
    rw [splitOnNl_cons]
    by_cases hc : c = '\n'
    · simp [if_pos hc, ih, List.count_cons, hc]
    · simp [if_neg hc, ih, List.count_cons, hc]

theorem splitOnNl_no_nl (l : List Char) (h : '\n' ∉ l) : splitOnNl l = [l] := by
  apply List.splitOnP_eq_single
  intro x hx
  simp only [beq_iff_eq]
  exact fun heq => h (heq ▸ hx)

theorem splitOnNl_joinLines (ls : List (List Char)) (h : ∀ l ∈ ls, '\n' ∉ l)
    (h2 : ls ≠ []) : splitOnNl (joinLines ls) = ls :=
  List.splitOn_intercalate ls '\n' h h2

theorem trimEndSpaces_isEmpty_iff (l : List Char) :
    (trimEndSpaces l).isEmpty = true ↔ ∀ c ∈ l, c = ' ' := by
  simp [trimEndSpaces, List.dropWhile_eq_nil_iff, List.isEmpty_iff]

/-! Lemmas about the token scanner. -/

theorem tokDigit_cases {d : Char} (h : tokDigit d = true) :
    d = '1' ∨ d = '2' ∨ d = '3' ∨ d = '4' ∨ d = '5' ∨ d = '6' := by
  simp [tokDigit] at h
  tauto

theorem charSlot_bounds {d : Char} (h : tokDigit d = true) :
    1 ≤ charSlot d ∧ charSlot d ≤ 6 := by
  rcases tokDigit_cases h with h | h | h | h | h | h <;> subst h <;> decide

theorem slotChar_charSlot {d : Char} (h : tokDigit d = true) :
    slotChar (charSlot d) = d := by
  rcases tokDigit_cases h with h | h | h | h | h | h <;> subst h <;> decide

theorem charSlot_slotChar {s : Nat} (h1 : 1 ≤ s) (h2 : s ≤ 6) :
    charSlot (slotChar s) = s := by
  interval_cases s <;> decide

theorem tokDigit_slotChar {s : Nat} (h1 : 1 ≤ s) (h2 : s ≤ 6) :
    tokDigit (slotChar s) = true := by
  interval_cases s <;> decide

theorem startsWithTok_iff {l : List Char} :
    startsWithTok l = true ↔ ∃ s t, 1 ≤ s ∧ s ≤ 6 ∧ l = tokChars s ++ t := by
  constructor
  · intro h
    rcases l with _ | ⟨a, _ | ⟨b, _ | ⟨cc, _ | ⟨d, _ | ⟨e, t⟩⟩⟩⟩⟩
    case nil => exact absurd h (by simp [startsWithTok])
    case cons.nil => exact absurd h (by simp [startsWithTok])
    case cons.cons.nil => exact absurd h (by simp [startsWithTok])
    case cons.cons.cons.nil => exact absurd h (by simp [startsWithTok])
    case cons.cons.cons.cons.nil => exact absurd h (by simp [startsWithTok])
    simp only [startsWithTok, Bool.and_eq_true, decide_eq_true_eq] at h
    obtain ⟨⟨⟨⟨ha, hb⟩, hcc⟩, hd⟩, he⟩ := h
    subst ha; subst hb; subst hcc; subst he
    refine ⟨charSlot d, t, (charSlot_bounds hd).1, (charSlot_bounds hd).2, ?_⟩
    simp [tokChars, slotChar_charSlot hd]
  · rintro ⟨s, t, h1, h2, rfl⟩
    simp [tokChars, startsWithTok, tokDigit_slotChar h1 h2]

theorem slotAt_tokChars {s : Nat} (h1 : 1 ≤ s) (h2 : s ≤ 6) (t : List Char) :
    slotAt (tokChars s ++ t) = s := by
  simp [tokChars, slotAt, charSlot_slotChar h1 h2]

theorem startsWithTok_append_inert {a : Char} (h1 : a ≠ '$') (h2 : a ≠ '\x7b')
    (h3 : a ≠ 'c') (h4 : a ≠ '\x7d') (h5 : tokDigit a = false) (xs ys : List Char) :
    startsWithTok (xs ++ a :: ys) = startsWithTok xs := by
  rcases xs with _ | ⟨x1, _ | ⟨x2, _ | ⟨x3, _ | ⟨x4, _ | ⟨x5, t⟩⟩⟩⟩⟩
  · rcases ys with _ | ⟨y1, _ | ⟨y2, _ | ⟨y3, _ | ⟨y4, ys'⟩⟩⟩⟩ <;>
      simp [startsWithTok, h1]
  · rcases ys with _ | ⟨y1, _ | ⟨y2, _ | ⟨y3, ys'⟩⟩⟩ <;> simp [startsWithTok, h2]
  · rcases ys with _ | ⟨y1, _ | ⟨y2, ys'⟩⟩ <;> simp [startsWithTok, h3]
  · rcases ys with _ | ⟨y1, ys'⟩ <;> simp [startsWithTok, h5]
  · simp [startsWithTok, h4]
  · simp [startsWithTok]

theorem startsWithTok_space (xs ys : List Char) :
    startsWithTok (xs ++ ' ' :: ys) = startsWithTok xs :=
  startsWithTok_append_inert (by decide) (by decide) (by decide) (by decide) (by decide) xs ys

theorem startsWithTok_nl (xs ys : List Char) :
    startsWithTok (xs ++ '\n' :: ys) = startsWithTok xs :=
  startsWithTok_append_inert (by decide) (by decide) (by decide) (by decide) (by decide) xs ys

theorem startsWithTok_append_all_spaces {ys : List Char} (h : ∀ c ∈ ys, c = ' ')
    (xs : List Char) : startsWithTok (xs ++ ys) = startsWithTok xs := by
  cases ys with
  | nil => simp
  | cons y ys' =>
    have hy : y = ' ' := h y (List.mem_cons_self _ _)
    subst hy
    exact startsWithTok_space xs ys'

/-! Lemmas about `strip`. -/

theorem strip_nil : strip [] = [] := by
  rw [strip]

theorem strip_cons (c : Char) (rest : List Char) :
    strip (c :: rest) =
      if startsWithTok (c :: rest) then strip (rest.drop 4) else c :: strip rest := by
  rw [strip]

theorem slotChar_ne_nl (s : Nat) : slotChar s ≠ '\n' := by
  unfold slotChar
  split_ifs <;> decide

theorem tokChars_eq_cons (s : Nat) (t : List Char) :
    tokChars s ++ t = '$' :: '\x7b' :: 'c' :: slotChar s :: '\x7d' :: t := by
  simp [tokChars]

theorem strip_tok {s : Nat} (h1 : 1 ≤ s) (h2 : s ≤ 6) (t : List Char) :
    strip (tokChars s ++ t) = strip t := by
  have hst : startsWithTok (tokChars s ++ t) = true :=
    startsWithTok_iff.mpr ⟨s, t, h1, h2, rfl⟩
  rw [tokChars_eq_cons] at hst ⊢
  rw [strip_cons, if_pos hst]
  simp

theorem strip_not_tok {c : Char} {rest : List Char}
    (h : startsWithTok (c :: rest) = false) : strip (c :: rest) = c :: strip rest := by
  rw [strip_cons, h]
  simp

theorem strip_spaces {l : List Char} (h : ∀ c ∈ l, c = ' ') : strip l = l := by
  induction l with
  | nil => exact strip_nil
  | cons c rest ih =>
    have hc : c = ' ' := h c (List.mem_cons_self _ _)
    subst hc
    have hns : startsWithTok (' ' :: rest) = false := by
      have := startsWithTok_space [] rest
      simpa using this
    rw [strip_not_tok hns, ih (fun x hx => h x (List.mem_cons_of_mem _ hx))]

theorem strip_append_spaces {ys : List Char} (h : ∀ c ∈ ys, c = ' ')
    (xs : List Char) : strip (xs ++ ys) = strip xs ++ ys := by
  induction xs using strip.induct with
  | case1 => simp [strip_nil, strip_spaces h]
  | case2 c rest htok ih =>
    obtain ⟨s, t, hs1, hs2, heq⟩ := startsWithTok_iff.mp htok
    have hrest : rest.drop 4 = t := by
      rw [tokChars_eq_cons] at heq
      cases heq
      simp
    rw [heq, List.append_assoc, strip_tok hs1 hs2, strip_tok hs1 hs2, ← hrest, ih]
  | case3 c rest htok ih =>
    have htok' : startsWithTok (c :: (rest ++ ys)) = false := by
      rw [← List.cons_append, startsWithTok_append_all_spaces h (c :: rest)]
      exact Bool.eq_false_iff.mpr htok
    rw [List.cons_append, strip_not_tok htok',
      strip_not_tok (Bool.eq_false_iff.mpr htok), ih, List.cons_append]

theorem strip_count_nl (l : List Char) : (strip l).count '\n' = l.count '\n' := by
  induction l using strip.induct with
  | case1 => rw [strip_nil]
  | case2 c rest htok ih =>
    obtain ⟨s, t, hs1, hs2, heq⟩ := startsWithTok_iff.mp htok
    have hrest : rest.drop 4 = t := by
      rw [tokChars_eq_cons] at heq
      cases heq
      simp
    rw [heq, strip_tok hs1 hs2, List.count_append, ← hrest, ih, hrest]
    have : (tokChars s).count '\n' = 0 := by
      simp [tokChars, List.count_cons, slotChar_ne_nl s]
    omega
  | case3 c rest htok ih =>
    rw [strip_not_tok (Bool.eq_false_iff.mpr htok), List.count_cons, List.count_cons, ih]

theorem splitOnNl_cons_of_ne {c : Char} (hc : c ≠ '\n') {l : List Char}
    {H : List Char} {T : List (List Char)} (h : splitOnNl l = H :: T) :
    splitOnNl (c :: l) = (c :: H) :: T := by
  rw [splitOnNl_cons, if_neg hc, h]
  rfl

theorem splitOnNl_head_structure {l H : List Char} {T : List (List Char)}
    (h : splitOnNl l = H :: T) :
    (T = [] ∧ l = H) ∨ ∃ r, l = H ++ '\n' :: r := by
  induction l generalizing H T with
  | nil =>
    rw [splitOnNl_nil] at h
    cases h
    exact Or.inl ⟨rfl, rfl⟩
  | cons c rest ih =>
    rw [splitOnNl_cons] at h
    by_cases hc : c = '\n'
    · rw [if_pos hc] at h
      cases h
      exact Or.inr ⟨rest, by simp [hc]⟩
    · rw [if_neg hc] at h
      rcases hrest : splitOnNl rest with _ | ⟨H', T'⟩
      · exact absurd hrest (splitOnNl_ne_nil rest)
      · rw [hrest] at h
        simp only [List.modifyHead] at h
        cases h
        rcases ih hrest with ⟨hT, hr⟩ | ⟨r, hr⟩
        · exact Or.inl ⟨hT, by rw [hr]⟩
        · exact Or.inr ⟨r, by rw [hr]; rfl⟩

theorem splitOnNl_strip (l : List Char) :
    splitOnNl (strip l) = (splitOnNl l).map strip := by
  induction l using strip.induct with
  | case1 => simp [strip_nil, splitOnNl_nil]
  | case2 c rest htok ih =>
    obtain ⟨s, t, hs1, hs2, heq⟩ := startsWithTok_iff.mp htok
    have hrest : rest.drop 4 = t := by
      rw [tokChars_eq_cons] at heq
      cases heq
      simp
    rcases hsplit : splitOnNl t with _ | ⟨H, T⟩
    · exact absurd hsplit (splitOnNl_ne_nil t)
    · have htsplit : splitOnNl (tokChars s ++ t) = (tokChars s ++ H) :: T := by
        rw [tokChars_eq_cons]
        rw [tokChars_eq_cons]
        exact splitOnNl_cons_of_ne (by decide)
          (splitOnNl_cons_of_ne (by decide)
            (splitOnNl_cons_of_ne (by decide)
              (splitOnNl_cons_of_ne (slotChar_ne_nl s)
                (splitOnNl_cons_of_ne (by decide) hsplit))))
      rw [heq, strip_tok hs1 hs2, ← hrest, ih, hrest, hsplit, htsplit]
      simp [strip_tok hs1 hs2]
  | case3 c rest htok ih =>
    have htokf := Bool.eq_false_iff.mpr htok
    by_cases hc : c = '\n'
    · subst hc
      rw [strip_not_tok htokf, splitOnNl_cons, if_pos rfl, splitOnNl_cons, if_pos rfl]
      simp [ih, strip_nil]
    · rcases hsplit : splitOnNl rest with _ | ⟨H, T⟩
      · exact absurd hsplit (splitOnNl_ne_nil rest)
      · have hstriprest : splitOnNl (strip rest) = strip H :: T.map strip := by
          rw [ih, hsplit]
          rfl
        have hcH : startsWithTok (c :: H) = false := by
          rcases splitOnNl_head_structure hsplit with ⟨hT, hr⟩ | ⟨r, hr⟩
          · rw [← hr]; exact htokf
          · have : startsWithTok ((c :: H) ++ '\n' :: r) = startsWithTok (c :: H) :=
              startsWithTok_nl (c :: H) r
            rw [← this]
            rw [hr] at htokf
            simpa using htokf
        rw [strip_not_tok htokf, splitOnNl_cons_of_ne hc hstriprest,
          splitOnNl_cons_of_ne hc hsplit]
        simp [strip_not_tok hcH]

/-! Lemmas about `findMatches`. -/

theorem findMatchesGo_nil (pos : Nat) : findMatchesGo [] pos = [] := by
  rw [findMatchesGo]

theorem findMatchesGo_cons (c : Char) (rest : List Char) (pos : Nat) :
    findMatchesGo (c :: rest) pos =
      if startsWithTok (c :: rest) then
        (pos, slotAt (c :: rest)) :: findMatchesGo (rest.drop 4) (pos + 5)
      else findMatchesGo rest (pos + 1) := by
  rw [findMatchesGo]

theorem length_tokChars (s : Nat) : (tokChars s).length = 5 := by
  simp [tokChars]

theorem findMatchesGo_tok {s : Nat} (h1 : 1 ≤ s) (h2 : s ≤ 6) (t : List Char) (pos : Nat) :
    findMatchesGo (tokChars s ++ t) pos = (pos, s) :: findMatchesGo t (pos + 5) := by
  have hst : startsWithTok (tokChars s ++ t) = true :=
    startsWithTok_iff.mpr ⟨s, t, h1, h2, rfl⟩
  have hsl := slotAt_tokChars h1 h2 t
  rw [tokChars_eq_cons] at hst hsl ⊢
  rw [findMatchesGo_cons, if_pos hst, hsl]
  simp

theorem findMatchesGo_not_tok {c : Char} {rest : List Char} (pos : Nat)
    (h : startsWithTok (c :: rest) = false) :
    findMatchesGo (c :: rest) pos = findMatchesGo rest (pos + 1) := by
  rw [findMatchesGo_cons, h]
  simp

theorem findMatchesGo_shift (l : List Char) (q : Nat) : ∀ p,
    findMatchesGo l (q + p) = (findMatchesGo l q).map (fun m => (m.1 + p, m.2)) := by
  induction l, q using findMatchesGo.induct with
  | case1 q => intro p; simp [findMatchesGo_nil]
  | case2 q c rest htok ih =>
    intro p
    rw [findMatchesGo_cons, if_pos htok, findMatchesGo_cons, if_pos htok]
    simp only [List.map_cons]
    refine congrArg₂ List.cons rfl ?_
    rw [show q + p + 5 = q + 5 + p by omega]
    exact ih p
  | case3 q c rest htok ih =>
    intro p
    rw [findMatchesGo_not_tok _ (Bool.eq_false_iff.mpr htok),
      findMatchesGo_not_tok _ (Bool.eq_false_iff.mpr htok)]
    rw [show q + p + 1 = q + 1 + p by omega]
    exact ih p

theorem findMatchesGo_sound (l : List Char) (p : Nat) :
    ∀ m ∈ findMatchesGo l p,
      p ≤ m.1 ∧ (l.drop (m.1 - p)).take 5 = tokChars m.2 ∧ 1 ≤ m.2 ∧ m.2 ≤ 6 := by
  induction l, p using findMatchesGo.induct with
  | case1 p => simp [findMatchesGo_nil]
  | case2 p c rest htok ih =>
    obtain ⟨s, t, hs1, hs2, heq⟩ := startsWithTok_iff.mp htok
    have hrest : rest.drop 4 = t := by
      rw [tokChars_eq_cons] at heq
      cases heq
      simp
    intro m hm
    rw [findMatchesGo_cons, if_pos htok] at hm
    rcases List.mem_cons.mp hm with h | h
    · subst h
      have hslot : slotAt (c :: rest) = s := by
        rw [heq]; exact slotAt_tokChars hs1 hs2 t
      refine ⟨le_refl p, ?_, ?_, ?_⟩
      · simp only [Nat.sub_self, List.drop_zero, hslot]
        rw [heq, ← length_tokChars s, List.take_left]
      · simp [hslot, hs1]
      · simp [hslot, hs2]
    · have h2 := ih m h
      refine ⟨by omega, ?_, h2.2.2⟩
      have hdrop : (c :: rest).drop (m.1 - p) = (rest.drop 4).drop (m.1 - (p + 5)) := by
        rw [heq, hrest, show m.1 - p = (tokChars s).length + (m.1 - (p + 5)) by
          rw [length_tokChars]; omega]
        exact List.drop_append _
      rw [hdrop]
      exact h2.2.1
  | case3 p c rest htok ih =>
    intro m hm
    rw [findMatchesGo_not_tok _ (Bool.eq_false_iff.mpr htok)] at hm
    have h2 := ih m hm
    refine ⟨by omega, ?_, h2.2.2⟩
    have hdrop : (c :: rest).drop (m.1 - p) = rest.drop (m.1 - (p + 1)) := by
      rw [show m.1 - p = (m.1 - (p + 1)) + 1 by omega]
      exact List.drop_succ_cons
    rw [hdrop]
    exact h2.2.1

theorem findMatches_sound {l : List Char} {m : Nat × Nat} (h : m ∈ findMatches l) :
    (l.drop m.1).take 5 = tokChars m.2 ∧ 1 ≤ m.2 ∧ m.2 ≤ 6 := by
  have := findMatchesGo_sound l 0 m h
  simpa using this.2

theorem findMatchesGo_spaces {sp : List Char} (h : ∀ c ∈ sp, c = ' ')
    (l : List Char) (p : Nat) :
    findMatchesGo (sp ++ l) p = findMatchesGo l (p + sp.length) := by
  induction sp generalizing p with
  | nil => simp
  | cons y sp' ih =>
    have hy : y = ' ' := h y (List.mem_cons_self _ _)
    subst hy
    have hns : startsWithTok (' ' :: (sp' ++ l)) = false := by
      have := startsWithTok_space [] (sp' ++ l)
      simpa using this
    rw [List.cons_append, findMatchesGo_not_tok _ hns,
      ih (fun x hx => h x (List.mem_cons_of_mem _ hx)) (p + 1)]
    refine congrArg _ ?_
    simp
    omega

theorem findMatchesGo_nil_iff (l : List Char) (p : Nat) :
    findMatchesGo l p = [] ↔ findMatchesGo l 0 = [] := by
  rw [show p = 0 + p by omega, findMatchesGo_shift]
  simp

theorem mem_of_getLast_eq {α : Type} {l : List α} {a : α} (h : l.getLast? = some a) :
    a ∈ l := by
  obtain ⟨hne, rfl⟩ := List.mem_getLast?_eq_getLast (Option.mem_def.mpr h)
  exact List.getLast_mem hne

theorem strip_of_no_matches {l : List Char} (h : findMatches l = []) : strip l = l := by
  induction l using strip.induct with
  | case1 => exact strip_nil
  | case2 c rest htok ih =>
    rw [findMatches, findMatchesGo_cons, if_pos htok] at h
    exact absurd h (List.cons_ne_nil _ _)
  | case3 c rest htok ih =>
    rw [findMatches, findMatchesGo_not_tok _ (Bool.eq_false_iff.mpr htok),
      findMatchesGo_nil_iff] at h
    rw [strip_not_tok (Bool.eq_false_iff.mpr htok), ih h]

/-! Characterization of the `fill_starting` per-line test: the code's
condition (first match at 0 or after a prefix that `trim_end_matches(' ')`
empties) and the specification's phrase (first non-space-prefix content is
a placeholder) both say the line is spaces, then a token. -/

theorem startsSpec_iff {line : List Char} :
    startsSpec line = true ↔
      ∃ k s t, 1 ≤ s ∧ s ≤ 6 ∧ line = List.replicate k ' ' ++ (tokChars s ++ t) := by
  constructor
  · intro h
    unfold startsSpec at h
    obtain ⟨s, t, h1, h2, heq⟩ := startsWithTok_iff.mp h
    refine ⟨(line.takeWhile (fun c => c = ' ')).length, s, t, h1, h2, ?_⟩
    have hsplit := List.takeWhile_append_dropWhile (fun c => decide (c = ' ')) line
    have hrep : line.takeWhile (fun c => c = ' ') =
        List.replicate (line.takeWhile (fun c => c = ' ')).length ' ' := by
      refine List.eq_replicate_length.mpr ?_
      intro b hb
      have := List.mem_takeWhile_imp hb
      simpa using this
    rw [← heq, ← hrep]
    exact hsplit.symm
  · rintro ⟨k, s, t, h1, h2, rfl⟩
    unfold startsSpec
    have hdw : (List.replicate k ' ' ++ (tokChars s ++ t)).dropWhile (fun c => c = ' ')
        = (tokChars s ++ t).dropWhile (fun c => c = ' ') := by
      induction k with
      | zero => rfl
      | succ n ih =>
        rw [List.replicate_succ, List.cons_append, List.dropWhile_cons_of_pos (by simp)]
        exact ih
    have hdw2 : (tokChars s ++ t).dropWhile (fun c => c = ' ') = tokChars s ++ t := by
      rw [tokChars_eq_cons]
      simp [List.dropWhile]
    rw [hdw, hdw2]
    exact startsWithTok_iff.mpr ⟨s, t, h1, h2, rfl⟩

theorem lineStartsOk_iff {line : List Char} :
    lineStartsOk line = true ↔
      ∃ k s t, 1 ≤ s ∧ s ≤ 6 ∧ line = List.replicate k ' ' ++ (tokChars s ++ t) := by
  constructor
  · intro h
    unfold lineStartsOk at h
    rcases hfm : findMatches line with _ | ⟨m, ms⟩
    · rw [hfm] at h
      exact absurd h (by simp)
    · obtain ⟨st, sl⟩ := m
      rw [hfm] at h
      simp only [beq_iff_eq, Bool.or_eq_true, decide_eq_true_eq] at h
      have hmem : (st, sl) ∈ findMatches line := by
        rw [hfm]
        exact List.mem_cons_self _ _
      obtain ⟨htake, hs1, hs2⟩ := findMatches_sound hmem
      have hlen5 : ((line.drop st).take 5).length = 5 := by
        rw [htake, length_tokChars]
      have hbound : st + 5 ≤ line.length := by
        rw [List.length_take, List.length_drop] at hlen5
        omega
      have hsp : ∀ c ∈ line.take st, c = ' ' := by
        rcases h with h0 | htr
        · simp [h0]
        · exact (trimEndSpaces_isEmpty_iff _).mp htr
      have hlen : (line.take st).length = st := by
        rw [List.length_take]
        omega
      refine ⟨st, sl, (line.drop st).drop 5, hs1, hs2, ?_⟩
      have hrep : line.take st = List.replicate st ' ' := by
        have h2 := List.eq_replicate_length.mpr hsp
        rwa [hlen] at h2
      calc line = line.take st ++ line.drop st := (List.take_append_drop st line).symm
        _ = line.take st ++ ((line.drop st).take 5 ++ (line.drop st).drop 5) := by
            rw [List.take_append_drop 5 (line.drop st), List.take_append_drop st line]
        _ = List.replicate st ' ' ++ (tokChars sl ++ (line.drop st).drop 5) := by
            rw [hrep, htake]
  · rintro ⟨k, s, t, h1, h2, rfl⟩
    unfold lineStartsOk
    have hfm : findMatches (List.replicate k ' ' ++ (tokChars s ++ t))
        = (k, s) :: findMatchesGo t (k + 5) := by
      rw [findMatches, findMatchesGo_spaces (fun c hc => List.eq_of_mem_replicate hc),
        findMatchesGo_tok h1 h2]
      simp
    rw [hfm]
    have htake : (List.replicate k ' ' ++ (tokChars s ++ t)).take k = List.replicate k ' ' := by
      rw [show ((List.replicate k ' ' ++ (tokChars s ++ t)).take k)
          = ((List.replicate k ' ' ++ (tokChars s ++ t)).take (List.replicate k ' ').length) by
        simp, List.take_left]
    simp only [htake]
    have htr := (trimEndSpaces_isEmpty_iff (List.replicate k ' ')).mpr
      (fun c hc => List.eq_of_mem_replicate hc)
    simp [htr]

theorem lineStartsOk_eq_startsSpec (line : List Char) :
    lineStartsOk line = startsSpec line := by
  cases h1 : lineStartsOk line <;> cases h2 : startsSpec line
  · rfl
  · exact absurd (lineStartsOk_iff.mpr (startsSpec_iff.mp h2)) (by simp [h1])
  · exact absurd (startsSpec_iff.mpr (lineStartsOk_iff.mp h1)) (by simp [h2])
  · rfl

theorem lineStartsOk_of_no_matches {line : List Char} (h : findMatches line = []) :
    lineStartsOk line = false := by
  unfold lineStartsOk
  rw [h]

/-! Reduction helpers for the `Except` monad. -/

theorem bind_ok {α β : Type} (a : α) (f : α → Except RErr β) :
    (Except.ok a : Except RErr α) >>= f = f a := rfl

theorem bind_err {α β : Type} (e : RErr) (f : α → Except RErr β) :
    (Except.error e : Except RErr α) >>= f = Except.error e := rfl

theorem except_map_ok {α β : Type} (a : α) (f : α → β) :
    (Except.ok a : Except RErr α).map f = Except.ok (f a) := rfl

theorem except_map_err {α β : Type} (e : RErr) (f : α → β) :
    (Except.error e : Except RErr α).map f = Except.error e := rfl

/-! Lemmas about `fill_starting`. -/

theorem fillGo_nil (carry : Option (List Char)) : fillGo carry [] = Except.ok [] := rfl

theorem fillGo_cons (carry : Option (List Char)) (L : List Char) (rest : List (List Char)) :
    fillGo carry (L :: rest) =
      (fillLine carry L) >>= fun r =>
        (fillGo r.2 rest) >>= fun others => Except.ok (r.1 :: others) := rfl

theorem fillLine_none {L : List Char} (h : lineStartsOk L = false) :
    fillLine none L = Except.error RErr.missingColorState := by
  unfold fillLine
  rw [h]
  rfl

theorem fillLine_spec {carry : Option (List Char)} {L : List Char} {r}
    (h : fillLine carry L = Except.ok r) :
    ((lineStartsOk L = true ∧ r.1 = L) ∨
      (lineStartsOk L = false ∧ ∃ t, carry = some t ∧ r.1 = t ++ L)) ∧
    (r.2 = carry ∨ ∃ m, m ∈ findMatches L ∧ r.2 = some ((L.drop m.1).take 5)) := by
  unfold fillLine at h
  by_cases hso : lineStartsOk L
  · rw [if_pos hso] at h
    rw [show (pure L : Except RErr (List Char)) = Except.ok L from rfl, bind_ok] at h
    cases h
    refine ⟨Or.inl ⟨hso, rfl⟩, ?_⟩
    cases hgl : (findMatches L).getLast? with
    | none => exact Or.inl (by simp [hgl])
    | some m => exact Or.inr ⟨m, mem_of_getLast_eq hgl, by simp [hgl]⟩
  · rw [if_neg hso] at h
    cases carry with
    | none =>
      have h' : (Except.error RErr.missingColorState : Except RErr _) = Except.ok r := h
      exact absurd h' (by intro hh; cases hh)
    | some t =>
      have h' : Except.ok ((t ++ L),
          match (findMatches L).getLast? with
          | some m => some ((L.drop m.1).take 5)
          | none => some t) = Except.ok r := h
      cases h'
      refine ⟨Or.inr ⟨Bool.eq_false_iff.mpr hso, t, rfl, rfl⟩, ?_⟩
      cases hgl : (findMatches L).getLast? with
      | none => exact Or.inl (by simp [hgl])
      | some m => exact Or.inr ⟨m, mem_of_getLast_eq hgl, by simp [hgl]⟩

theorem fillGo_ok_mem {lines : List (List Char)} : ∀ {carry outs},
    (∀ t, carry = some t → ∃ s, 1 ≤ s ∧ s ≤ 6 ∧ t = tokChars s) →
    (∀ L ∈ lines, '\n' ∉ L) →
    fillGo carry lines = Except.ok outs →
    outs.length = lines.length ∧
    ∀ line ∈ outs,
      (∃ k s t, 1 ≤ s ∧ s ≤ 6 ∧ line = List.replicate k ' ' ++ (tokChars s ++ t)) ∧
      '\n' ∉ line := by
  induction lines with
  | nil =>
    intro carry outs _ _ h
    rw [fillGo_nil] at h
    cases h
    simp
  | cons L rest ih =>
    intro carry outs hc hnl h
    rw [fillGo_cons] at h
    rcases hfl : fillLine carry L with e | r
    · rw [hfl, bind_err] at h
      exact absurd h (by intro hh; cases hh)
    · rw [hfl, bind_ok] at h
      rcases hfg : fillGo r.2 rest with e | others
      · rw [hfg, bind_err] at h
        exact absurd h (by intro hh; cases hh)
      · rw [hfg, bind_ok] at h
        cases h
        obtain ⟨hhead, hcarry⟩ := fillLine_spec hfl
        have hLnl : '\n' ∉ L := hnl L (List.mem_cons_self _ _)
        have hheadline :
            (∃ k s t, 1 ≤ s ∧ s ≤ 6 ∧ r.1 = List.replicate k ' ' ++ (tokChars s ++ t)) ∧
            '\n' ∉ r.1 := by
          rcases hhead with ⟨hso, hr⟩ | ⟨_, t, hct, hr⟩
          · exact ⟨hr ▸ lineStartsOk_iff.mp hso, hr ▸ hLnl⟩
          · obtain ⟨s, hs1, hs2, hts⟩ := hc t hct
            refine ⟨⟨0, s, L, hs1, hs2, by simp [hr, hts]⟩, ?_⟩
            rw [hr, hts]
            intro hmem
            rcases List.mem_append.mp hmem with hm | hm
            · have hm2 : '\n' ∈ tokChars s := hm
              rw [tokChars] at hm2
              simp only [List.mem_cons, List.not_mem_nil, or_false] at hm2
              rcases hm2 with h | h | h | h | h
              · exact absurd h (by decide)
              · exact absurd h (by decide)
              · exact absurd h (by decide)
              · exact slotChar_ne_nl s h.symm
              · exact absurd h (by decide)
            · exact hLnl hm
        have hcarry' : ∀ t, r.2 = some t → ∃ s, 1 ≤ s ∧ s ≤ 6 ∧ t = tokChars s := by
          intro t ht
          rcases hcarry with hcc | ⟨m, hm, hcc⟩
          · exact hc t (hcc ▸ ht)
          · rw [hcc] at ht
            cases ht
            obtain ⟨htake, hs1, hs2⟩ := findMatches_sound hm
            exact ⟨m.2, hs1, hs2, htake⟩
        obtain ⟨hlen, hmem⟩ :=
          ih hcarry' (fun x hx => hnl x (List.mem_cons_of_mem _ hx)) hfg
        refine ⟨by simp [hlen], ?_⟩
        intro line hline
        rcases List.mem_cons.mp hline with hl | hl
        · exact hl ▸ hheadline
        · exact hmem line hl

theorem startsWithTok_cons_ne {c : Char} (h : c ≠ '$') (rest : List Char) :
    startsWithTok (c :: rest) = false := by
  rcases rest with _ | ⟨b, _ | ⟨cc, _ | ⟨d, _ | ⟨e, t⟩⟩⟩⟩ <;> simp [startsWithTok, h]

theorem strip_of_no_dollar {l : List Char} (h : ∀ c ∈ l, c ≠ '$') : strip l = l := by
  induction l with
  | nil => exact strip_nil
  | cons c rest ih =>
    rw [strip_not_tok (startsWithTok_cons_ne (h c (List.mem_cons_self _ _)) rest),
      ih (fun x hx => h x (List.mem_cons_of_mem _ hx))]

/-! Claims. -/

/-- C10: the line iterator of `ascii_size` is never empty, so its `expect`
cannot fire; whenever `ascii_size` returns a pair, the height is one plus
the number of `'\n'` characters of the input; and `ascii_size` of the
empty string is `(0, 1)`. -/
theorem C10_ascii_size_height (s : List Char) :
    asciiLines s ≠ [] ∧
    (∀ w h, ascii_size s = Except.ok (w, h) → h = s.count '\n' + 1) ∧
    ascii_size [] = Except.ok (0, 1) := by
  refine ⟨splitOnNl_ne_nil _, ?_, ?_⟩
  · intro w h hok
    unfold ascii_size at hok
    split_ifs at hok
    all_goals cases hok
    calc (asciiLines s).length = (strip s).count '\n' + 1 := splitOnNl_length _
      _ = s.count '\n' + 1 := by rw [strip_count_nl]
  · simp [ascii_size, asciiLines, strip_nil, splitOnNl_nil]

/-- Witness for C10: a concrete two-line input. -/
theorem C10_witness :
    ascii_size ("a\nb".toList) = Except.ok (1, 2) ∧
    (2 : Nat) = ("a\nb".toList).count '\n' + 1 := by
  have heval : ascii_size ("a\nb".toList) = Except.ok (1, 2) := by
    simp [ascii_size, asciiLines, strip, startsWithTok, tokDigit, splitOnNl,
      List.splitOn, List.splitOnP, List.splitOnP.go]
  exact ⟨heval, (C10_ascii_size_height ("a\nb".toList)).2.1 1 2 heval⟩

theorem asciiLines_isEmpty_false (s : List Char) : (asciiLines s).isEmpty = false := by
  rcases h : asciiLines s with _ | ⟨L, Ls⟩
  · exact absurd h (splitOnNl_ne_nil _)
  · rfl

theorem ascii_size_of_bounds {s : List Char} (h1 : measuredW s ≤ 255)
    (h2 : measuredH s ≤ 255) :
    ascii_size s = Except.ok (measuredW s, measuredH s) := by
  unfold ascii_size
  rw [asciiLines_isEmpty_false, if_neg (by simp)]
  rw [show ((asciiLines s).map List.length).foldr Nat.max 0 = measuredW s from rfl,
    show (asciiLines s).length = measuredH s from rfl, if_pos h1, if_pos h2]

theorem ascii_size_of_wide {s : List Char} (h1 : 255 < measuredW s) :
    ascii_size s = Except.error RErr.panic := by
  unfold ascii_size
  rw [asciiLines_isEmpty_false, if_neg (by simp)]
  rw [show ((asciiLines s).map List.length).foldr Nat.max 0 = measuredW s from rfl,
    if_neg (by omega)]

theorem ascii_size_ok_inv {s : List Char} {w h : Nat}
    (hok : ascii_size s = Except.ok (w, h)) :
    w = measuredW s ∧ h = measuredH s ∧ w ≤ 255 ∧ h ≤ 255 := by
  unfold ascii_size at hok
  split_ifs at hok with h1 h2 h3
  all_goals cases hok
  exact ⟨rfl, rfl, h2, h3⟩

theorem measuredW_wide_replicate : measuredW (List.replicate 256 'A') = 256 := by
  have hstrip : strip (List.replicate 256 'A') = List.replicate 256 'A' :=
    strip_of_no_dollar (fun c hc => by rw [List.eq_of_mem_replicate hc]; decide)
  have hsplit : splitOnNl (List.replicate 256 'A') = [List.replicate 256 'A'] :=
    splitOnNl_no_nl _
      (fun hmem => absurd (List.eq_of_mem_replicate hmem) (by decide))
  unfold measuredW
  rw [hstrip, hsplit]
  simp only [List.map_cons, List.map_nil, List.foldr_cons, List.foldr_nil,
    List.length_replicate]
  rfl

/-- C3 counterexample: on a 256-column input, `ascii_size` hits the panic
of `u8::try_from(width).expect(..)` (embedded `RErr.panic`) instead of
returning a recoverable `DimensionOverflow` error. -/
theorem C3_counterexample :
    ascii_size (List.replicate 256 'A') = Except.error RErr.panic ∧
    RErr.panic ≠ RErr.dimensionOverflow := by
  refine ⟨ascii_size_of_wide ?_, by decide⟩
  rw [measuredW_wide_replicate]
  omega

/-- C3 (amended): within the `u8` bounds, `ascii_size` returns the
measured `(width, height)`; above 255 columns it panics rather than
returning a recoverable `DimensionOverflow`. -/
theorem C3_ascii_size_bounds (s : List Char) :
    (measuredW s ≤ 255 → measuredH s ≤ 255 →
      ascii_size s = Except.ok (measuredW s, measuredH s)) ∧
    (255 < measuredW s → ascii_size s = Except.error RErr.panic) :=
  ⟨fun h1 h2 => ascii_size_of_bounds h1 h2, fun h1 => ascii_size_of_wide h1⟩

/-- Witness for C3 at a concrete in-bounds input. -/
theorem C3_witness : ascii_size ("ab\nc".toList) = Except.ok (2, 2) := by
  have hw : measuredW ("ab\nc".toList) = 2 := by
    simp [measuredW, strip, startsWithTok, tokDigit, splitOnNl, List.splitOn,
      List.splitOnP, List.splitOnP.go]
  have hh : measuredH ("ab\nc".toList) = 2 := by
    simp [measuredH, strip, startsWithTok, tokDigit, splitOnNl, List.splitOn,
      List.splitOnP, List.splitOnP.go]
  have h := (C3_ascii_size_bounds ("ab\nc".toList)).1 (by rw [hw]; omega) (by rw [hh]; omega)
  rw [hw, hh] at h
  exact h

theorem le_foldr_max {x : Nat} {ls : List Nat} (h : x ∈ ls) :
    x ≤ ls.foldr Nat.max 0 := by
  induction ls with
  | nil => cases h
  | cons a ls ih =>
    rcases List.mem_cons.mp h with h1 | h1
    · subst h1
      exact Nat.le_max_left _ _
    · exact le_trans (ih h1) (Nat.le_max_right _ _)

theorem lineW_le_measuredW {s L : List Char} (h : L ∈ splitOnNl s) :
    lineW L ≤ measuredW s := by
  unfold measuredW
  rw [splitOnNl_strip]
  exact le_foldr_max (List.mem_map_of_mem List.length (List.mem_map_of_mem strip h))

theorem no_nl_strip {L : List Char} (h : '\n' ∉ L) : '\n' ∉ strip L := by
  intro hmem
  have h1 : L.count '\n' = 0 := List.count_eq_zero.mpr h
  have h2 := strip_count_nl L
  rw [h1] at h2
  exact List.count_eq_zero.mp h2 hmem

theorem ascii_size_single_line {L : List Char} (hnl : '\n' ∉ L) (hb : lineW L ≤ 255) :
    ascii_size L = Except.ok (lineW L, 1) := by
  have hW : measuredW L = lineW L := by
    unfold measuredW
    rw [splitOnNl_no_nl (strip L) (no_nl_strip hnl)]
    simp only [List.map_cons, List.map_nil, List.foldr_cons, List.foldr_nil]
    exact Nat.max_zero _
  have hH : measuredH L = 1 := by
    unfold measuredH
    rw [splitOnNl_no_nl (strip L) (no_nl_strip hnl)]
    rfl
  have h1 : measuredW L ≤ 255 := by rw [hW]; exact hb
  have h2 : measuredH L ≤ 255 := by rw [hH]; omega
  have hres := ascii_size_of_bounds h1 h2
  rwa [hW, hH] at hres

theorem padLine_ok {w : Nat} {L : List Char} (hnl : '\n' ∉ L) (hb : lineW L ≤ 255) :
    padLine w L = Except.ok (L ++ List.replicate (w - lineW L) ' ') := by
  unfold padLine
  rw [ascii_size_single_line hnl hb, bind_ok]
  rfl

theorem mapM_ok {α β : Type} (f : α → Except RErr β) (g : α → β) (l : List α)
    (h : ∀ a ∈ l, f a = Except.ok (g a)) : l.mapM f = Except.ok (l.map g) := by
  induction l with
  | nil => rfl
  | cons a l ih =>
    rw [List.mapM_cons, h a (List.mem_cons_self _ _),
      ih (fun x hx => h x (List.mem_cons_of_mem _ hx))]
    rfl

/-- C9 counterexample: `normalize_ascii` is not total — on a 256-column
line its internal `ascii_size` panics, so the whole call panics instead of
returning padded output. -/
theorem C9_counterexample :
    normalize_ascii (List.replicate 256 'A') = Except.error RErr.panic := by
  have h : ascii_size (List.replicate 256 'A') = Except.error RErr.panic := by
    refine ascii_size_of_wide ?_
    rw [measuredW_wide_replicate]
    omega
  unfold normalize_ascii
  rw [h, bind_err]

/-- C9 (amended): whenever `ascii_size` succeeds on the input (both
dimensions within `u8`), `normalize_ascii` succeeds, each output line is
the input line plus trailing spaces, and every output line's display width
(stripped character count) equals the measured overall width. -/
theorem C9_normalize {s : List Char} {w h : Nat}
    (hok : ascii_size s = Except.ok (w, h)) :
    ∃ out, normalize_ascii s = Except.ok out ∧
      splitOnNl out = (splitOnNl s).map (fun l => l ++ List.replicate (w - lineW l) ' ') ∧
      ∀ line ∈ splitOnNl out, lineW line = w := by
  obtain ⟨hw, hh, hwb, hhb⟩ := ascii_size_ok_inv hok
  subst hw
  subst hh
  have hpadall : ∀ L ∈ splitOnNl s, padLine (measuredW s) L =
      Except.ok (L ++ List.replicate (measuredW s - lineW L) ' ') := by
    intro L hL
    exact padLine_ok (splitOnNl_mem_no_nl s L hL)
      (le_trans (lineW_le_measuredW hL) hwb)
  have hmapM := mapM_ok _ _ (splitOnNl s) hpadall
  have hnonl : ∀ l ∈ (splitOnNl s).map
      (fun L => L ++ List.replicate (measuredW s - lineW L) ' '), '\n' ∉ l := by
    intro l hl
    obtain ⟨L, hL, rfl⟩ := List.mem_map.mp hl
    intro hmem
    rcases List.mem_append.mp hmem with hm | hm
    · exact splitOnNl_mem_no_nl s L hL hm
    · exact absurd (List.eq_of_mem_replicate hm) (by decide)
  have hne : ((splitOnNl s).map
      (fun L => L ++ List.replicate (measuredW s - lineW L) ' ')) ≠ [] := by
    intro hemp
    exact splitOnNl_ne_nil s (List.map_eq_nil_iff.mp hemp)
  have hsplit := splitOnNl_joinLines _ hnonl hne
  refine ⟨joinLines ((splitOnNl s).map
    fun L => L ++ List.replicate (measuredW s - lineW L) ' '), ?_, hsplit, ?_⟩
  · unfold normalize_ascii
    rw [hok]
    simp only [bind_ok]
    rw [hmapM]
    rfl
  intro line hline
  rw [hsplit] at hline
  obtain ⟨L, hL, rfl⟩ := List.mem_map.mp hline
  unfold lineW
  rw [strip_append_spaces (fun c hc => List.eq_of_mem_replicate hc) L,
    List.length_append, List.length_replicate]
  have hle : lineW L ≤ measuredW s := lineW_le_measuredW hL
  unfold lineW at hle
  omega

/-- Witness for C9 at a concrete input. -/
theorem C9_witness :
    ∃ out, normalize_ascii ("ab\nc".toList) = Except.ok out ∧
      splitOnNl out = (splitOnNl ("ab\nc".toList)).map
        (fun l => l ++ List.replicate (2 - lineW l) ' ') ∧
      ∀ line ∈ splitOnNl out, lineW line = 2 := by
  have hok : ascii_size ("ab\nc".toList) = Except.ok (2, 2) := by
    simp [ascii_size, asciiLines, strip, startsWithTok, tokDigit, splitOnNl,
      List.splitOn, List.splitOnP, List.splitOnP.go]
  exact C9_normalize hok

/-- C8 counterexample: stripping `"${c${c1}1}"` once leaves `"${c1}"` (the
removal of the inner token splices a new token together), which a second
strip removes: the single multi-pattern strip pass is not idempotent. -/
theorem C8_counterexample :
    strip (strip ("$\x7bc$\x7bc1\x7d1\x7d".toList)) ≠
      strip ("$\x7bc$\x7bc1\x7d1\x7d".toList) := by
  have h1 : strip ("$\x7bc$\x7bc1\x7d1\x7d".toList) = "$\x7bc1\x7d".toList := by
    simp [strip, startsWithTok, tokDigit]
  have h2 : strip ("$\x7bc1\x7d".toList) = [] := by
    simp [strip, startsWithTok, tokDigit]
  rw [h1, h2]
  decide

/-- C8 (amended): stripping is idempotent on every input whose first strip
leaves no token occurrence (no new token is spliced together); the general
statement fails, see the counterexample. -/
theorem C8_strip_idempotent {l : List Char} (h : findMatches (strip l) = []) :
    strip (strip l) = strip l :=
  strip_of_no_matches h

/-- Witness for C8 at a concrete input. -/
theorem C8_witness :
    strip (strip ("$\x7bc1\x7dAB".toList)) = strip ("$\x7bc1\x7dAB".toList) := by
  refine C8_strip_idempotent ?_
  have h1 : strip ("$\x7bc1\x7dAB".toList) = "AB".toList := by
    simp [strip, startsWithTok, tokDigit]
  rw [h1]
  simp [findMatches, findMatchesGo, startsWithTok, tokDigit]

theorem bind_ok_eq_map {α β : Type} (x : Except RErr α) (f : α → β) :
    (x >>= fun a => Except.ok (f a)) = x.map f := by
  cases x <;> rfl

theorem fillAmendedGo_cons (c : Option (List Char)) (L : List Char)
    (rest : List (List Char)) :
    fillAmendedGo c (L :: rest) =
      if startsSpec L then
        (fillAmendedGo (match lastTokOf L with | some t => some t | none => c) rest).map
          (fun others => L :: others)
      else
        match c with
        | some t =>
          (fillAmendedGo (match lastTokOf L with | some t2 => some t2 | none => c) rest).map
            (fun others => (t ++ L) :: others)
        | none => Except.error RErr.missingColorState := rfl

theorem fillLine_ok_of {c : Option (List Char)} {L : List Char}
    (h : lineStartsOk L = true) :
    fillLine c L = Except.ok (L,
      match (findMatches L).getLast? with
      | some m => some ((L.drop m.1).take 5)
      | none => c) := by
  unfold fillLine
  rw [if_pos h]
  rfl

theorem fillLine_some_of {t : List Char} {L : List Char}
    (h : lineStartsOk L = false) :
    fillLine (some t) L = Except.ok (t ++ L,
      match (findMatches L).getLast? with
      | some m => some ((L.drop m.1).take 5)
      | none => some t) := by
  unfold fillLine
  rw [h]
  rfl

theorem fillGo_eq_fillAmendedGo (lines : List (List Char)) : ∀ carry,
    fillGo carry lines = fillAmendedGo carry lines := by
  induction lines with
  | nil => intro c; rfl
  | cons L rest ih =>
    intro c
    have hcarry : (match (findMatches L).getLast? with
        | some m => some ((L.drop m.1).take 5)
        | none => c) = (match lastTokOf L with | some t => some t | none => c) := by
      cases hgl : (findMatches L).getLast? with
      | none => simp [lastTokOf, hgl]
      | some m =>
        have hs := (findMatches_sound (mem_of_getLast_eq hgl)).1
        simp [lastTokOf, hgl, hs]
    rw [fillGo_cons, fillAmendedGo_cons, ← lineStartsOk_eq_startsSpec]
    by_cases hso : lineStartsOk L = true
    · rw [if_pos hso, fillLine_ok_of hso]
      simp only [bind_ok]
      rw [bind_ok_eq_map, hcarry, ih]
    · have hsof := Bool.eq_false_iff.mpr hso
      rw [if_neg hso]
      cases c with
      | none => rw [fillLine_none hsof, bind_err]
      | some t =>
        rw [fillLine_some_of hsof]
        simp only [bind_ok]
        rw [bind_ok_eq_map, hcarry, ih]

/-- C5 (amended): `fill_starting` is the top-to-bottom carry scan in which
a line whose first non-space-prefix content is already a placeholder is
kept unchanged, any other line gets the current carry prepended (error when
none exists), and the carry is updated to the last placeholder occurrence
of every line that contains one — including lines that were modified, not
only lines left unchanged. -/
theorem C5_fill_starting_algorithm (asc : List Char) :
    fill_starting asc = fillAmended asc := by
  unfold fill_starting fillAmended
  rw [fillGo_eq_fillAmendedGo]

/-- C5 counterexample: on `"${c1}A\nB${c2}C\nD"` the code records the carry
`"${c2}"` from the second line even though that line was modified, so the
third line becomes `"${c2}D"`; the claim's algorithm, which records the
carry only from unchanged lines, gives `"${c1}D"` instead. -/
theorem C5_counterexample :
    fill_starting ("$\x7bc1\x7dA\nB$\x7bc2\x7dC\nD".toList) =
      Except.ok ("$\x7bc1\x7dA\n$\x7bc1\x7dB$\x7bc2\x7dC\n$\x7bc2\x7dD".toList) ∧
    fillClaimed ("$\x7bc1\x7dA\nB$\x7bc2\x7dC\nD".toList) =
      Except.ok ("$\x7bc1\x7dA\n$\x7bc1\x7dB$\x7bc2\x7dC\n$\x7bc1\x7dD".toList) ∧
    fill_starting ("$\x7bc1\x7dA\nB$\x7bc2\x7dC\nD".toList) ≠
      fillClaimed ("$\x7bc1\x7dA\nB$\x7bc2\x7dC\nD".toList) := by
  have h1 : fill_starting ("$\x7bc1\x7dA\nB$\x7bc2\x7dC\nD".toList) =
      Except.ok ("$\x7bc1\x7dA\n$\x7bc1\x7dB$\x7bc2\x7dC\n$\x7bc2\x7dD".toList) := by
    simp +decide [fill_starting, splitOnNl, List.splitOn, List.splitOnP, List.splitOnP.go,
      fillGo, fillLine, lineStartsOk, findMatches, findMatchesGo, startsWithTok, tokDigit,
      slotAt, charSlot, trimEndSpaces, List.take, joinLines, List.intercalate, bind_ok,
      bind_err, except_map_ok, except_map_err]
  have h2 : fillClaimed ("$\x7bc1\x7dA\nB$\x7bc2\x7dC\nD".toList) =
      Except.ok ("$\x7bc1\x7dA\n$\x7bc1\x7dB$\x7bc2\x7dC\n$\x7bc1\x7dD".toList) := by
    simp +decide [fillClaimed, fillClaimedGo, startsSpec, List.dropWhile, startsWithTok,
      tokDigit, lastTokOf, findMatches, findMatchesGo, slotAt, charSlot, tokChars, slotChar,
      splitOnNl, List.splitOn, List.splitOnP, List.splitOnP.go, joinLines, List.intercalate,
      except_map_ok, except_map_err]
  refine ⟨h1, h2, ?_⟩
  rw [h1, h2]
  intro h
  cases h

/-- C6: when some line needs a carried-forward placeholder (its first
non-space-prefix content is not a token) and no earlier line contains any
token occurrence, `fill_starting` fails with `MissingColorState`. -/
theorem C6_fill_starting_missing {asc : List Char} {i : Nat} {line : List Char}
    (hget : (splitOnNl asc)[i]? = some line)
    (hneedy : startsSpec line = false)
    (hprior : ∀ j, j < i → ∀ lj, (splitOnNl asc)[j]? = some lj → hasTok lj = false) :
    fill_starting asc = Except.error RErr.missingColorState := by
  rcases hsplit : splitOnNl asc with _ | ⟨L0, Ls⟩
  · exact absurd hsplit (splitOnNl_ne_nil asc)
  have h0 : lineStartsOk L0 = false := by
    rcases Nat.eq_zero_or_pos i with hi | hi
    · subst hi
      rw [hsplit] at hget
      simp only [List.getElem?_cons_zero, Option.some.injEq] at hget
      rw [lineStartsOk_eq_startsSpec, hget]
      exact hneedy
    · have hh := hprior 0 hi L0 (by rw [hsplit]; simp)
      have hfm : findMatches L0 = [] := by
        unfold hasTok at hh
        simpa using hh
      exact lineStartsOk_of_no_matches hfm
  rw [fill_starting, hsplit, fillGo_cons, fillLine_none h0, bind_err]
  rfl

/-- Witness for C6: the single-line art `"A"` with no placeholder. -/
theorem C6_witness : fill_starting ("A".toList) = Except.error RErr.missingColorState := by
  refine @C6_fill_starting_missing ("A".toList) 0 (['A']) ?_ ?_ ?_
  · decide
  · simp [startsSpec, startsWithTok, List.dropWhile]
  · intro j hj
    omega

/-- C7: every line of a successful `fill_starting` output is at most
leading spaces followed by one of the six placeholder tokens; in
particular each output line has a token occurrence, so the zero-match
branch of the Vertical fore/back renderer (`findMatches line = []`, the
embedded `unreachable!`) cannot be reached on `fill_starting` output. -/
theorem C7_fill_starting_output {asc out : List Char}
    (h : fill_starting asc = Except.ok out) :
    ∀ line ∈ splitOnNl out,
      (∃ k s t, 1 ≤ s ∧ s ≤ 6 ∧ line = List.replicate k ' ' ++ (tokChars s ++ t)) ∧
      findMatches line ≠ [] := by
  unfold fill_starting at h
  rcases hfg : fillGo none (splitOnNl asc) with e | outs
  · rw [hfg, except_map_err] at h
    cases h
  · rw [hfg, except_map_ok] at h
    cases h
    obtain ⟨hlen, hmem⟩ :=
      fillGo_ok_mem (fun t ht => by cases ht) (splitOnNl_mem_no_nl asc) hfg
    have houts_ne : outs ≠ [] := by
      intro he
      rw [he] at hlen
      exact splitOnNl_ne_nil asc (List.length_eq_zero.mp hlen.symm)
    have hsplit : splitOnNl (joinLines outs) = outs :=
      splitOnNl_joinLines outs (fun l hl => (hmem l hl).2) houts_ne
    rw [hsplit]
    intro line hline
    obtain ⟨hshape, _⟩ := hmem line hline
    refine ⟨hshape, ?_⟩
    intro hfmnil
    have hok : lineStartsOk line = true := lineStartsOk_iff.mpr hshape
    rw [lineStartsOk_of_no_matches hfmnil] at hok
    cases hok

theorem buildReplacements_err {cb : Collab} {palette : List Nat}
    {mapping : List (Fin 6 × Nat)} (h : ∃ sp ∈ mapping, palette.length ≤ sp.2) :
    buildReplacements cb mapping palette = Except.error RErr.panic := by
  unfold buildReplacements
  suffices hgen : ∀ (acc : List (List Char)),
      List.foldlM (fun reps sp =>
        if sp.2 < palette.length then
          Except.ok (reps.set sp.1.val (cb.render (palette.getD sp.2 0)))
        else Except.error RErr.panic) acc mapping = Except.error RErr.panic by
    exact hgen _
  induction mapping with
  | nil =>
    obtain ⟨sp, hsp, _⟩ := h
    cases hsp
  | cons a l ih =>
    intro acc
    rw [List.foldlM_cons]
    by_cases ha : a.2 < palette.length
    · rw [if_pos ha, bind_ok]
      obtain ⟨sp, hsp, hle⟩ := h
      rcases List.mem_cons.mp hsp with h1 | h1
      · subst h1
        omega
      · exact ih ⟨sp, h1, hle⟩ _
    · rw [if_neg ha, bind_err]

theorem withLength_length {p : List Nat} {n : Nat} {l : List Nat}
    (h : withLength p n = Except.ok l) : l.length = n := by
  unfold withLength at h
  split_ifs at h
  all_goals cases h
  simp

theorem withLength_self {p : List Nat} (h : p ≠ []) :
    withLength p p.length = Except.ok p := by
  have hp : 0 < p.length := List.length_pos.mpr h
  unfold withLength
  rw [if_neg (by simp [List.isEmpty_iff, h])]
  refine congrArg Except.ok ?_
  apply List.ext_getElem (by simp)
  intro i h1 h2
  simp only [List.getElem_map, List.getElem_range]
  rw [Nat.mul_div_cancel _ hp]
  exact List.getD_eq_getElem p 0 h2

theorem vertLine_eq {cb : Collab} {theme : TerminalTheme} {fore back : Fin 6}
    {colors : List Nat} {line : List Char} {m : Nat × Nat} {ms : List (Nat × Nat)}
    (h : findMatches line = m :: ms) :
    vertLine cb theme fore back colors line =
      vertGo cb theme fore back colors line (m :: ms) 0 := by
  unfold vertLine
  rw [h]

/-- C1: on the line `"${c1}AA${c2}BB"` with fore slot 1 and back slot 2,
the Vertical strategy renders `"AA"` as theme-neutral text closed by one
reset, then renders `"BB"` with the gradient colors at indices 2 and 3 of
the width-4-spread profile (each character's gradient index is its position
minus the 10 characters of placeholder tokens consumed so far), with no
reset inside the gradient span. -/
theorem C1_vertical_pair_example (cb : Collab) (p : List Nat) (theme : TerminalTheme)
    (l : List Nat) (hl : withLength p 4 = Except.ok l) :
    recolor_ascii cb (ColorAlignment.vertical (some (0, 1))) p theme
      ("$\x7bc1\x7dAA$\x7bc2\x7dBB".toList) =
    Except.ok (cb.neutral theme ++ ['A', 'A'] ++ cb.reset ++
      cb.render (l.getD 2 0) ++ ['B'] ++ cb.render (l.getD 3 0) ++ ['B']) := by
  have hlen := withLength_length hl
  rcases l with _ | ⟨a, _ | ⟨b, _ | ⟨c, _ | ⟨d, _ | ⟨e, lrest⟩⟩⟩⟩⟩ <;> simp at hlen
  have hfill : fill_starting ("$\x7bc1\x7dAA$\x7bc2\x7dBB".toList) =
      Except.ok ("$\x7bc1\x7dAA$\x7bc2\x7dBB".toList) := by
    simp +decide [fill_starting, splitOnNl, List.splitOn, List.splitOnP, List.splitOnP.go,
      fillGo, fillLine, lineStartsOk, findMatches, findMatchesGo, startsWithTok, tokDigit,
      slotAt, charSlot, trimEndSpaces, joinLines, List.intercalate, bind_ok, bind_err,
      except_map_ok, except_map_err]
  have hsize : ascii_size ("$\x7bc1\x7dAA$\x7bc2\x7dBB".toList) = Except.ok (4, 1) := by
    simp +decide [ascii_size, asciiLines, strip, startsWithTok, tokDigit, splitOnNl,
      List.splitOn, List.splitOnP, List.splitOnP.go]
  have hfm : findMatches ("$\x7bc1\x7dAA$\x7bc2\x7dBB".toList) = [(0, 1), (7, 2)] := by
    simp +decide [findMatches, findMatchesGo, startsWithTok, tokDigit, slotAt, charSlot]
  have hsub : withLength [c, d] 2 = Except.ok [c, d] := by
    have h2 := withLength_self (show ([c, d] : List Nat) ≠ [] by simp)
    simpa using h2
  simp only [recolor_ascii, hfill, bind_ok, hsize, bind_ok, hl, bind_ok]
  rw [show splitOnNl ("$\x7bc1\x7dAA$\x7bc2\x7dBB".toList) =
    [("$\x7bc1\x7dAA$\x7bc2\x7dBB".toList)] by decide]
  rw [List.mapM_cons, List.mapM_nil, vertLine_eq hfm]
  simp +decide [vertGo, sliceE, colorText, hsub, joinLines, List.intercalate,
    List.intersperse, bind_ok, List.append_assoc]

/-- Witness for C1 at a concrete profile. -/
theorem C1_witness :
    recolor_ascii Collab.default (ColorAlignment.vertical (some (0, 1))) [0, 1, 2, 3]
      TerminalTheme.dark ("$\x7bc1\x7dAA$\x7bc2\x7dBB".toList) =
    Except.ok ("[W]AA[R][F**]B[F***]B".toList) := by
  have h := C1_vertical_pair_example Collab.default [0, 1, 2, 3] TerminalTheme.dark
    [0, 1, 2, 3] rfl
  rw [h]
  rfl

theorem withLength_nil (n : Nat) :
    withLength [] n = Except.error RErr.profileSpreadFailure := rfl

theorem colorText_nil_profile (cb : Collab) (txt : List Char) :
    colorText cb [] txt = Except.error RErr.profileSpreadFailure := rfl

theorem fillLine_err {c : Option (List Char)} {L : List Char} {e : RErr}
    (h : fillLine c L = Except.error e) : e = RErr.missingColorState := by
  unfold fillLine at h
  by_cases hso : lineStartsOk L
  · rw [if_pos hso] at h
    have h' : Except.ok (L,
        match (findMatches L).getLast? with
        | some m => some ((L.drop m.1).take 5)
        | none => c) = Except.error e := h
    cases h'
  · rw [if_neg hso] at h
    cases c with
    | none =>
      have h' : (Except.error RErr.missingColorState :
          Except RErr (List Char × Option (List Char))) = Except.error e := h
      cases h'
      rfl
    | some t =>
      have h' : Except.ok (t ++ L,
          match (findMatches L).getLast? with
          | some m => some ((L.drop m.1).take 5)
          | none => some t) = Except.error e := h
      cases h'

theorem fillGo_err {lines : List (List Char)} : ∀ {c e},
    fillGo c lines = Except.error e → e = RErr.missingColorState := by
  induction lines with
  | nil =>
    intro c e h
    rw [fillGo_nil] at h
    cases h
  | cons L rest ih =>
    intro c e h
    rw [fillGo_cons] at h
    rcases hfl : fillLine c L with e2 | r
    · rw [hfl, bind_err] at h
      cases h
      exact fillLine_err hfl
    · rw [hfl, bind_ok] at h
      rcases hfg : fillGo r.2 rest with e2 | others
      · rw [hfg, bind_err] at h
        cases h
        exact ih hfg
      · rw [hfg, bind_ok] at h
        cases h

theorem fill_starting_err {asc : List Char} {e : RErr}
    (h : fill_starting asc = Except.error e) : e = RErr.missingColorState := by
  unfold fill_starting at h
  rcases hfg : fillGo none (splitOnNl asc) with e2 | outs
  · rw [hfg, except_map_err] at h
    cases h
    exact fillGo_err hfg
  · rw [hfg, except_map_ok] at h
    cases h

theorem buildReplacements_err_kind {cb : Collab} {mapping : List (Fin 6 × Nat)}
    {palette : List Nat} {e : RErr}
    (h : buildReplacements cb mapping palette = Except.error e) : e = RErr.panic := by
  unfold buildReplacements at h
  revert h
  suffices hgen : ∀ (acc : List (List Char)),
      List.foldlM (fun reps sp =>
        if sp.2 < palette.length then
          Except.ok (reps.set sp.1.val (cb.render (palette.getD sp.2 0)))
        else Except.error RErr.panic) acc mapping = Except.error e → e = RErr.panic by
    exact hgen _
  induction mapping with
  | nil =>
    intro acc h
    rw [List.foldlM_nil] at h
    cases h
  | cons a l ih =>
    intro acc h
    rw [List.foldlM_cons] at h
    by_cases ha : a.2 < palette.length
    · rw [if_pos ha, bind_ok] at h
      exact ih _ h
    · rw [if_neg ha, bind_err] at h
      cases h
      rfl

/-- C2 counterexample: the Custom strategy performs no profile spreading:
with an empty profile and an empty mapping it succeeds (all six tokens are
replaced by empty strings and a reset is appended per line) instead of
failing with `ProfileSpreadFailure`. -/
theorem C2_counterexample :
    recolor_ascii Collab.default (ColorAlignment.custom []) [] TerminalTheme.dark
      ("$\x7bc1\x7dA".toList) = Except.ok ("A[R]".toList) := by
  have hfill : fill_starting ("$\x7bc1\x7dA".toList) =
      Except.ok ("$\x7bc1\x7dA".toList) := by
    simp +decide [fill_starting, splitOnNl, List.splitOn, List.splitOnP, List.splitOnP.go,
      fillGo, fillLine, lineStartsOk, findMatches, findMatchesGo, startsWithTok, tokDigit,
      slotAt, charSlot, trimEndSpaces, joinLines, List.intercalate, bind_ok, bind_err,
      except_map_ok, except_map_err]
  simp only [recolor_ascii, hfill, bind_ok]
  rw [show buildReplacements Collab.default [] (uniqueColors []) =
    Except.ok (List.replicate 6 []) from rfl, bind_ok]
  simp +decide [replaceSlots, startsWithTok, tokDigit, slotAt, charSlot, splitOnNl,
    List.splitOn, List.splitOnP, List.splitOnP.go, joinLines, List.intercalate,
    Collab.default]
  rfl

/-- C2 (amended): with an empty color profile, the Horizontal and Vertical
strategies fail with `ProfileSpreadFailure` (once past the stages that can
fail first: `fill_starting` for the fore/back variants and the `ascii_size`
panic); the Custom strategy performs no profile spreading and never
returns `ProfileSpreadFailure`. -/
theorem C2_empty_profile (cb : Collab) (theme : TerminalTheme) (asc : List Char) :
    (∀ w h, ascii_size (strip asc) = Except.ok (w, h) →
      recolor_ascii cb (ColorAlignment.horizontal none) [] theme asc =
        Except.error RErr.profileSpreadFailure) ∧
    (recolor_ascii cb (ColorAlignment.vertical none) [] theme asc =
      Except.error RErr.profileSpreadFailure) ∧
    (∀ fore back a w h, fill_starting asc = Except.ok a →
      ascii_size (replaceTok (fore.val + 1) (cb.neutral theme) a) = Except.ok (w, h) →
      recolor_ascii cb (ColorAlignment.horizontal (some (fore, back))) [] theme asc =
        Except.error RErr.profileSpreadFailure) ∧
    (∀ fore back a w h, fill_starting asc = Except.ok a →
      ascii_size a = Except.ok (w, h) →
      recolor_ascii cb (ColorAlignment.vertical (some (fore, back))) [] theme asc =
        Except.error RErr.profileSpreadFailure) ∧
    (∀ mapping, recolor_ascii cb (ColorAlignment.custom mapping) [] theme asc ≠
      Except.error RErr.profileSpreadFailure) := by
  refine ⟨?_, ?_, ?_, ?_, ?_⟩
  · intro w h hok
    simp only [recolor_ascii, hok, bind_ok, withLength_nil, bind_err]
  · simp only [recolor_ascii]
    rcases hsp : splitOnNl (strip asc) with _ | ⟨L, Ls⟩
    · exact absurd hsp (splitOnNl_ne_nil _)
    · rw [List.mapM_cons, colorText_nil_profile, bind_err, bind_err]
  · intro fore back a w h hfill hok
    simp only [recolor_ascii, hfill, bind_ok, hok, withLength_nil, bind_err]
  · intro fore back a w h hfill hok
    simp only [recolor_ascii, hfill, bind_ok, hok, withLength_nil, bind_err]
  · intro mapping
    simp only [recolor_ascii]
    rcases hfl : fill_starting asc with e | a
    · rw [bind_err]
      intro hcontra
      cases hcontra
      exact absurd (fill_starting_err hfl) (by decide)
    · rw [bind_ok]
      rcases hbr : buildReplacements cb mapping (uniqueColors []) with e | reps
      · rw [bind_err]
        intro hcontra
        cases hcontra
        exact absurd (buildReplacements_err_kind hbr) (by decide)
      · rw [bind_ok]
        intro hcontra
        cases hcontra

/-- Witness for C2: concrete instances of all five conjuncts. -/
theorem C2_witness :
    recolor_ascii Collab.default (ColorAlignment.horizontal none) [] TerminalTheme.dark
      ("a".toList) = Except.error RErr.profileSpreadFailure ∧
    recolor_ascii Collab.default (ColorAlignment.vertical none) [] TerminalTheme.dark
      ("a".toList) = Except.error RErr.profileSpreadFailure ∧
    recolor_ascii Collab.default (ColorAlignment.horizontal (some (0, 1))) []
      TerminalTheme.dark ("$\x7bc1\x7da".toList) =
        Except.error RErr.profileSpreadFailure ∧
    recolor_ascii Collab.default (ColorAlignment.vertical (some (0, 1))) []
      TerminalTheme.dark ("$\x7bc1\x7da".toList) =
        Except.error RErr.profileSpreadFailure ∧
    recolor_ascii Collab.default (ColorAlignment.custom []) [] TerminalTheme.dark
      ("$\x7bc1\x7da".toList) ≠ Except.error RErr.profileSpreadFailure := by
  have hfill : fill_starting ("$\x7bc1\x7da".toList) =
      Except.ok ("$\x7bc1\x7da".toList) := by
    simp +decide [fill_starting, splitOnNl, List.splitOn, List.splitOnP, List.splitOnP.go,
      fillGo, fillLine, lineStartsOk, findMatches, findMatchesGo, startsWithTok, tokDigit,
      slotAt, charSlot, trimEndSpaces, joinLines, List.intercalate, bind_ok, bind_err,
      except_map_ok, except_map_err]
  have hsize1 : ascii_size (strip ("a".toList)) = Except.ok (1, 1) := by
    simp +decide [ascii_size, asciiLines, strip, startsWithTok, tokDigit, splitOnNl,
      List.splitOn, List.splitOnP, List.splitOnP.go]
  have hsize2 : ascii_size (replaceTok ((0 : Fin 6).val + 1)
      (Collab.default.neutral TerminalTheme.dark) ("$\x7bc1\x7da".toList)) =
      Except.ok (4, 1) := by
    have hrt : replaceTok ((0 : Fin 6).val + 1)
        (Collab.default.neutral TerminalTheme.dark) ("$\x7bc1\x7da".toList) =
        "[W]a".toList := by
      simp +decide [replaceTok, tokChars, slotChar, Collab.default]
    rw [hrt]
    simp +decide [ascii_size, asciiLines, strip, startsWithTok, tokDigit, splitOnNl,
      List.splitOn, List.splitOnP, List.splitOnP.go]
  have hsize3 : ascii_size ("$\x7bc1\x7da".toList) = Except.ok (1, 1) := by
    simp +decide [ascii_size, asciiLines, strip, startsWithTok, tokDigit, splitOnNl,
      List.splitOn, List.splitOnP, List.splitOnP.go]
  obtain ⟨ha1, ha2, ha3, ha4, ha5⟩ :=
    C2_empty_profile Collab.default TerminalTheme.dark ("a".toList)
  obtain ⟨hb1, hb2, hb3, hb4, hb5⟩ :=
    C2_empty_profile Collab.default TerminalTheme.dark ("$\x7bc1\x7da".toList)
  exact ⟨ha1 1 1 hsize1, ha2, hb3 0 1 _ 4 1 hfill hsize2, hb4 0 1 _ 1 1 hfill hsize3,
    hb5 []⟩

/-- C4 counterexample: a Custom mapping whose palette index is out of
bounds for the deduplicated profile makes the `colors[pi]` `Vec` index
panic (embedded `RErr.panic`); no defensive `InvalidColorIndex` error is
returned. -/
theorem C4_counterexample :
    recolor_ascii Collab.default (ColorAlignment.custom [(0, 0)]) [] TerminalTheme.dark
      ("$\x7bc1\x7d".toList) = Except.error RErr.panic ∧
    RErr.panic ≠ RErr.invalidColorIndex := by
  constructor
  · have hfill : fill_starting ("$\x7bc1\x7d".toList) =
        Except.ok ("$\x7bc1\x7d".toList) := by
      simp +decide [fill_starting, splitOnNl, List.splitOn, List.splitOnP, List.splitOnP.go,
        fillGo, fillLine, lineStartsOk, findMatches, findMatchesGo, startsWithTok, tokDigit,
        slotAt, charSlot, trimEndSpaces, joinLines, List.intercalate, bind_ok, bind_err,
        except_map_ok, except_map_err]
    have hbr : buildReplacements Collab.default [((0 : Fin 6), 0)] (uniqueColors []) =
        Except.error RErr.panic :=
      buildReplacements_err ⟨((0 : Fin 6), 0), List.mem_cons_self _ _, by decide⟩
    simp only [recolor_ascii, hfill, bind_ok, hbr, bind_err]
  · decide

/-- C4 (amended): when any entry of a Custom mapping names a palette index
that is not below the deduplicated profile's length, and the art passes the
line-state normalizer, `recolor_ascii` panics on the out-of-bounds `Vec`
index (embedded `RErr.panic`) instead of returning a recoverable
`InvalidColorIndex` error. -/
theorem C4_custom_oob {cb : Collab} {mapping : List (Fin 6 × Nat)} {p : List Nat}
    {theme : TerminalTheme} {asc a : List Char}
    (hfill : fill_starting asc = Except.ok a)
    (hoob : ∃ sp ∈ mapping, (uniqueColors p).length ≤ sp.2) :
    recolor_ascii cb (ColorAlignment.custom mapping) p theme asc =
      Except.error RErr.panic := by
  simp only [recolor_ascii, hfill, bind_ok, buildReplacements_err hoob, bind_err]

/-- Witness for C4 at a concrete input. -/
theorem C4_witness :
    recolor_ascii Collab.default (ColorAlignment.custom [(2, 5)]) [7] TerminalTheme.light
      ("$\x7bc3\x7dZ".toList) = Except.error RErr.panic := by
  have hfill : fill_starting ("$\x7bc3\x7dZ".toList) =
      Except.ok ("$\x7bc3\x7dZ".toList) := by
    simp +decide [fill_starting, splitOnNl, List.splitOn, List.splitOnP, List.splitOnP.go,
      fillGo, fillLine, lineStartsOk, findMatches, findMatchesGo, startsWithTok, tokDigit,
      slotAt, charSlot, trimEndSpaces, joinLines, List.intercalate, bind_ok, bind_err,
      except_map_ok, except_map_err]
  exact C4_custom_oob hfill ⟨((2 : Fin 6), 5), List.mem_cons_self _ _, by decide⟩

/-- Witness for C7 at a concrete input. -/
theorem C7_witness :
    (∃ k s t, 1 ≤ s ∧ s ≤ 6 ∧
      ("$\x7bc1\x7dB".toList) = List.replicate k ' ' ++ (tokChars s ++ t)) ∧
    findMatches ("$\x7bc1\x7dB".toList) ≠ [] := by
  have heval : fill_starting (" $\x7bc1\x7dA\nB".toList) =
      Except.ok ((" $\x7bc1\x7dA".toList) ++ '\n' :: ("$\x7bc1\x7dB".toList)) := by
    simp +decide [fill_starting, splitOnNl, List.splitOn, List.splitOnP, List.splitOnP.go,
      fillGo, fillLine, lineStartsOk, findMatches, findMatchesGo, startsWithTok, tokDigit,
      slotAt, charSlot, trimEndSpaces, List.take, joinLines, List.intercalate, bind_ok,
      bind_err, except_map_ok, except_map_err]
  refine C7_fill_starting_output heval ("$\x7bc1\x7dB".toList) ?_
  have : splitOnNl ((" $\x7bc1\x7dA".toList) ++ '\n' :: ("$\x7bc1\x7dB".toList)) =
      [" $\x7bc1\x7dA".toList, "$\x7bc1\x7dB".toList] := by
    decide
  rw [this]
  simp

end Hyfetch
